import Mathlib

set_option maxHeartbeats 1000000

namespace FixHttpUrls

/-!
Verification of `fix_http_urls.py`: a script that walks the Java sources of
WebGoat and replaces two fixed insecure-URL strings by their secure variants.
Strings are modelled as `List Char`; `re.sub` with the two (fully escaped,
hence literal) patterns of the script is modelled as left-to-right
non-overlapping literal replacement.  Definitions come first, then all
theorems.
-/

/-- `p` occurs at the start of `s`. -/
def IsPre (p s : List Char) : Prop := ∃ t, p ++ t = s

/-- `p` occurs at the end of `s`. -/
def IsSuf (p s : List Char) : Prop := ∃ t, t ++ p = s

/-- `p` occurs somewhere inside `s`. -/
def IsSub (p s : List Char) : Prop := ∃ u v, u ++ p ++ v = s

/-- Boolean test for `IsPre`. -/
def isPreB : List Char → List Char → Bool
  | [], _ => true
  | _ :: _, [] => false
  | a :: p, b :: s => a == b && isPreB p s

/-- Boolean test for `IsSuf`. -/
def isSufB (p s : List Char) : Bool := isPreB p.reverse s.reverse

/-- Boolean test for `IsSub`. -/
def isSubB (p : List Char) : List Char → Bool
  | [] => p.isEmpty
  | c :: t => isPreB p (c :: t) || isSubB p t

/-- Core scanner behind `replaceAll`: while `skip > 0` characters of a match
already replaced are being consumed; at `skip = 0` the scanner tries to match
the pattern at the current position. -/
def scanRepl (pat repl : List Char) : Nat → List Char → List Char
  | _ + 1, [] => []
  | k + 1, _ :: rest => scanRepl pat repl k rest
  | 0, [] => []
  | 0, c :: rest =>
    if !pat.isEmpty && isPreB pat (c :: rest) then
      repl ++ scanRepl pat repl (pat.length - 1) rest
    else
      c :: scanRepl pat repl 0 rest

/-- Left-to-right, non-overlapping replacement of every occurrence of the
literal string `pat` by `repl`: the behaviour of Python's `re.sub` when the
pattern is a fully escaped literal, as both patterns of the script are. -/
def replaceAll (pat repl s : List Char) : List Char := scanRepl pat repl 0 s

/-- Decidable side-condition checker: no nonempty proper leading part of
`pat` occurs at the end of `r`. -/
def noTakeSuf (pat r : List Char) : Bool :=
  (List.range pat.length).all fun k => k == 0 || !(isSufB (List.take k pat) r)

/-- Decidable side-condition checker: no nonempty proper trailing part of
`pat` occurs at the start of `r`. -/
def noDropPre (pat r : List Char) : Bool :=
  (List.range pat.length).all fun k => k == 0 || !(isPreB (List.drop k pat) r)

/-- Decidable side-condition checker: no nonempty trailing part of `x`
starts `r`, nor does `r` start any nonempty trailing part of `x`. -/
def noDropOverlap (x r : List Char) : Bool :=
  (List.range x.length).all fun k =>
    !(isPreB (List.drop k x) r) && !(isPreB r (List.drop k x))

/-- The pattern of the first `re.sub` of `fix_http_urls_in_file`
(`setHref\("http://www\.aspectsecurity\.com"\)`, a fully escaped literal). -/
def pat1 : List Char := "setHref(\"http://www.aspectsecurity.com\")".data

/-- The replacement of the first `re.sub` of `fix_http_urls_in_file`. -/
def repl1 : List Char := "setHref(\"https://www.aspectsecurity.com\")".data

/-- The pattern of the second `re.sub` of `fix_http_urls_in_file`
(`<a href="http://www\.aspectsecurity\.com">`, a fully escaped literal). -/
def pat2 : List Char := "<a href=\"http://www.aspectsecurity.com\">".data

/-- The replacement of the second `re.sub` of `fix_http_urls_in_file`. -/
def repl2 : List Char := "<a href=\"https://www.aspectsecurity.com\">".data

/-- The first `re.sub` call of `fix_http_urls_in_file`. -/
def subAspectLogo (s : List Char) : List Char := replaceAll pat1 repl1 s

/-- The second `re.sub` call of `fix_http_urls_in_file`. -/
def subAnchor (s : List Char) : List Char := replaceAll pat2 repl2 s

/-- The complete in-memory content transformation of `fix_http_urls_in_file`:
first substitution, then the second, on the whole file content. -/
def applyRules (s : List Char) : List Char := subAnchor (subAspectLogo s)

/-- Specification relation for one substitution pass, stated from the spec's
words: the output is the input in which each left-to-right, non-overlapping
occurrence of the pattern has been replaced by the replacement, and every
character outside those occurrences is copied unchanged. -/
inductive Replaced (pat repl : List Char) : List Char → List Char → Prop where
  | done : Replaced pat repl [] []
  | copy (c : Char) {s t : List Char} : ¬ IsPre pat (c :: s) → Replaced pat repl s t →
      Replaced pat repl (c :: s) (c :: t)
  | hit {s t : List Char} : Replaced pat repl s t →
      Replaced pat repl (pat ++ s) (repl ++ t)

/-- A file as `fix_http_urls_in_file` sees it: a path, the text content the
read yields, and flags describing whether the read (`open`/`read`) or the
write (`open(.., 'w')`/`write`) raises, together with the text of the raised
exception.  A write failure leaves the modelled content unchanged (partial
truncation by a failed `open(.., 'w')` is not modelled; no claim depends on
the content of a file whose write failed). -/
structure FSFile where
  path : String
  content : List Char
  readFails : Bool
  writeFails : Bool
  errMsg : String
deriving DecidableEq

/-- What one call of `fix_http_urls_in_file` did to one file: the file's
state afterwards, whether it was opened for reading / for writing, the
returned Bool (`fixed`), and the error line printed by the `except` arm. -/
structure FileOutcome where
  file : FSFile
  wasRead : Bool
  wasWritten : Bool
  fixed : Bool
  errorMsg : Option String
deriving DecidableEq

/-- The line printed by the `except` arm:
`print(f"Error processing {file_path}: {e}")`. -/
def errorLine (f : FSFile) : String := "Error processing " ++ f.path ++ ": " ++ f.errMsg

/-- Model of `fix_http_urls_in_file`: read the file (a raised exception is
caught, the error line printed, `False` returned); apply the two `re.sub`
rules; if the content changed, write it back (again catching any exception)
and return `True`; otherwise return `False` without writing. -/
def fix_http_urls_in_file (f : FSFile) : FileOutcome :=
  if f.readFails then
    { file := f, wasRead := true, wasWritten := false, fixed := false,
      errorMsg := some (errorLine f) }
  else if applyRules f.content ≠ f.content then
    if f.writeFails then
      { file := f, wasRead := true, wasWritten := true, fixed := false,
        errorMsg := some (errorLine f) }
    else
      { file := { f with content := applyRules f.content }, wasRead := true,
        wasWritten := true, fixed := true, errorMsg := none }
  else
    { file := f, wasRead := true, wasWritten := false, fixed := false,
      errorMsg := none }

/-- The extension filter of `glob.glob(os.path.join(base_path, "**", "*.java"),
recursive=True)`: only files whose name ends in `.java` are enumerated. -/
def hasJavaExt (p : String) : Bool := isSufB ".java".data p.data

/-- A file the run never touches (not enumerated by the glob). -/
def skipOutcome (f : FSFile) : FileOutcome :=
  { file := f, wasRead := false, wasWritten := false, fixed := false,
    errorMsg := none }

/-- What the loop of `main` does with one file under the root: files matching
the extension filter are handed to `fix_http_urls_in_file`, all others are
never opened. -/
def stepFile (f : FSFile) : FileOutcome :=
  if hasJavaExt f.path then fix_http_urls_in_file f else skipOutcome f

/-- The file system as `main` sees it: whether the hard-coded root exists,
and the files below it. -/
structure FileSystem where
  rootExists : Bool
  files : List FSFile
deriving DecidableEq

/-- The observable result of one run of `main`: the state of every file, the
recorded `fixed_files` (as printed in the summary), the error lines printed,
the `total_files` count, the process exit status, and the root-missing error
line if printed. -/
structure RunResult where
  outcomes : List FileOutcome
  fixedPaths : List String
  errors : List String
  scanned : Nat
  exitCode : Nat
  rootError : Option String
deriving DecidableEq

/-- The hard-coded root of `main`. -/
def basePath : String := "c:\\Apps\\WebGoat_v3\\webgoat\\JavaSource"

/-- The message `main` prints when the root does not exist. -/
def rootErrorLine : String := "Error: Path " ++ basePath ++ " does not exist"

/-- The `fixed_files` list accumulated by the loop of `main`. -/
def fixedPathsOf (files : List FSFile) : List String :=
  (files.map stepFile).filterMap fun o => if o.fixed then some o.file.path else none

/-- The error lines printed while the loop of `main` runs. -/
def errorsOf (files : List FSFile) : List String :=
  (files.map stepFile).filterMap fun o => o.errorMsg

/-- Model of `main`.  When the root is missing, `main` prints the error and
plainly `return`s: no file is enumerated, read or written, and the
interpreter still exits with status 0 (the script never calls `sys.exit`).
When the root exists, the glob enumerates the `.java` files, each is handed
to `fix_http_urls_in_file`, and the exit status is again 0. -/
def main_run (fs : FileSystem) : RunResult :=
  if fs.rootExists = false then
    { outcomes := fs.files.map skipOutcome, fixedPaths := [], errors := [],
      scanned := 0, exitCode := 0, rootError := some rootErrorLine }
  else
    { outcomes := fs.files.map stepFile,
      fixedPaths := fixedPathsOf fs.files,
      errors := errorsOf fs.files,
      scanned := (fs.files.filter fun f => hasJavaExt f.path).length,
      exitCode := 0,
      rootError := none }

/-- A byte is a valid UTF-8 continuation byte. -/
def contOk (b : Nat) : Bool := decide (0x80 ≤ b) && decide (b ≤ 0xBF)

/-- Valid first continuation byte after the 3-byte lead `b` (rejecting
overlong encodings and surrogates, as Python's UTF-8 codec does). -/
def cont3Ok (b b1 : Nat) : Bool :=
  if b = 0xE0 then decide (0xA0 ≤ b1) && decide (b1 ≤ 0xBF)
  else if b = 0xED then decide (0x80 ≤ b1) && decide (b1 ≤ 0x9F)
  else contOk b1

/-- Valid first continuation byte after the 4-byte lead `b` (rejecting
overlong encodings and values above U+10FFFF). -/
def cont4Ok (b b1 : Nat) : Bool :=
  if b = 0xF0 then decide (0x90 ≤ b1) && decide (b1 ≤ 0xBF)
  else if b = 0xF4 then decide (0x80 ≤ b1) && decide (b1 ≤ 0x8F)
  else contOk b1

/-- UTF-8 decoding with `errors='ignore'`: every byte sequence that cannot
be decoded is silently dropped (the invalid byte is skipped and decoding
resumes at the next byte). -/
def decodeLoop : Nat → List Nat → List Char
  | 0, _ => []
  | _ + 1, [] => []
  | fuel + 1, b :: rest =>
    if b < 0x80 then Char.ofNat b :: decodeLoop fuel rest
    else if 0xC2 ≤ b ∧ b ≤ 0xDF then
      match rest with
      | b1 :: rest1 =>
        if contOk b1 then
          Char.ofNat ((b - 0xC0) * 0x40 + (b1 - 0x80)) :: decodeLoop fuel rest1
        else decodeLoop fuel rest
      | [] => []
    else if 0xE0 ≤ b ∧ b ≤ 0xEF then
      match rest with
      | b1 :: rest1 =>
        if cont3Ok b b1 then
          match rest1 with
          | b2 :: rest2 =>
            if contOk b2 then
              Char.ofNat (((b - 0xE0) * 0x40 + (b1 - 0x80)) * 0x40 + (b2 - 0x80))
                :: decodeLoop fuel rest2
            else decodeLoop fuel rest1
          | [] => []
        else decodeLoop fuel rest
      | [] => []
    else if 0xF0 ≤ b ∧ b ≤ 0xF4 then
      match rest with
      | b1 :: rest1 =>
        if cont4Ok b b1 then
          match rest1 with
          | b2 :: rest2 =>
            if contOk b2 then
              match rest2 with
              | b3 :: rest3 =>
                if contOk b3 then
                  Char.ofNat ((((b - 0xF0) * 0x40 + (b1 - 0x80)) * 0x40
                    + (b2 - 0x80)) * 0x40 + (b3 - 0x80)) :: decodeLoop fuel rest3
                else decodeLoop fuel rest2
              | [] => []
            else decodeLoop fuel rest1
          | [] => []
        else decodeLoop fuel rest
      | [] => []
    else decodeLoop fuel rest

/-- Model of reading with `open(.., encoding='utf-8', errors='ignore')` (the
fuel, initially the byte count, only bounds the recursion and never runs out
because every step of `decodeLoop` consumes at least one byte). -/
def decodeUtf8Ignore (bs : List Nat) : List Char := decodeLoop bs.length bs

/-- UTF-8 encoding of one scalar value. -/
def encodeCharUtf8 (n : Nat) : List Nat :=
  if n < 0x80 then [n]
  else if n < 0x800 then [0xC0 + n / 0x40, 0x80 + n % 0x40]
  else if n < 0x10000 then
    [0xE0 + n / 0x1000, 0x80 + n / 0x40 % 0x40, 0x80 + n % 0x40]
  else
    [0xF0 + n / 0x40000, 0x80 + n / 0x1000 % 0x40, 0x80 + n / 0x40 % 0x40,
      0x80 + n % 0x40]

/-- Model of writing with `open(.., 'w', encoding='utf-8')`. -/
def encodeUtf8 (cs : List Char) : List Nat :=
  (cs.map fun c => encodeCharUtf8 c.toNat).flatten

/-- Byte-level view of `fix_http_urls_in_file` on a readable, writable file:
the on-disk bytes are decoded with `errors='ignore'`, the rules run on the
decoded text, and when the text changed the file's new bytes are the UTF-8
encoding of the new text; otherwise the bytes are untouched. -/
def fixFileBytes (bytes : List Nat) : Bool × List Nat :=
  if applyRules (decodeUtf8Ignore bytes) ≠ decodeUtf8Ignore bytes then
    (true, encodeUtf8 (applyRules (decodeUtf8Ignore bytes)))
  else (false, bytes)

/-- Concrete file whose read raises (e.g. permission denied). -/
def fErr : FSFile :=
  { path := "Bad.java", content := [], readFails := true, writeFails := false,
    errMsg := "Permission denied" }

/-- Concrete readable file whose content matches the first rule. -/
def fHit : FSFile :=
  { path := "Hit.java", content := pat1, readFails := false, writeFails := false,
    errMsg := "" }

/-- Concrete readable file whose content matches no rule. -/
def fMiss : FSFile :=
  { path := "Miss.java", content := "hello".data, readFails := false,
    writeFails := false, errMsg := "" }

/-- Concrete non-`.java` file whose content does contain a rule pattern. -/
def fTxt : FSFile :=
  { path := "notes.txt", content := pat1, readFails := false, writeFails := false,
    errMsg := "" }

/-- Concrete file whose content is already the image of the rules. -/
def fDone : FSFile :=
  { path := "Done.java", content := applyRules pat1, readFails := false,
    writeFails := false, errMsg := "" }

/-- Concrete file system used by the witnesses. -/
def fsDemo : FileSystem := { rootExists := true, files := [fErr, fHit, fMiss, fTxt] }

/-- Concrete file system whose tree is already fixed. -/
def fsFixed : FileSystem := { rootExists := true, files := [fDone, fMiss] }

/-- Concrete file system whose root does not exist. -/
def fsNoRoot : FileSystem := { rootExists := false, files := [fHit] }

/-- Concrete byte content: an ASCII `A`, an undecodable byte `0xFF`, then the
bytes of the first rule's pattern. -/
def c9bytes : List Nat := ("A".data.map Char.toNat) ++ 0xFF :: (pat1.map Char.toNat)

/-- The bytes `fix_http_urls_in_file` leaves on disk for `c9bytes`: the
`0xFF` is gone and the pattern is replaced. -/
def c9outBytes : List Nat := ("A".data ++ repl1).map Char.toNat

/-! Bridges between the Boolean occurrence tests and the occurrence
predicates. -/

theorem isPreB_iff {p s : List Char} : isPreB p s = true ↔ IsPre p s := by
  induction p generalizing s with
  | nil => simp [isPreB, IsPre]
  | cons a p ih =>
    cases s with
    | nil => simp [isPreB, IsPre]
    | cons b s =>
      simp only [isPreB, Bool.and_eq_true, beq_iff_eq, ih, IsPre]
      constructor
      · rintro ⟨rfl, t, rfl⟩; exact ⟨t, rfl⟩
      · rintro ⟨t, ht⟩
        injection ht with h1 h2
        exact ⟨h1, t, h2⟩

theorem isSufB_iff {p s : List Char} : isSufB p s = true ↔ IsSuf p s := by
  rw [isSufB, isPreB_iff]
  constructor
  · rintro ⟨t, ht⟩
    refine ⟨t.reverse, ?_⟩
    have := congrArg List.reverse ht
    simpa [List.reverse_append] using this
  · rintro ⟨t, rfl⟩
    exact ⟨t.reverse, by simp [List.reverse_append]⟩

theorem isSubB_iff {p s : List Char} : isSubB p s = true ↔ IsSub p s := by
  induction s with
  | nil =>
    simp only [isSubB, List.isEmpty_iff, IsSub]
    constructor
    · rintro rfl; exact ⟨[], [], rfl⟩
    · rintro ⟨u, v, h⟩
      rcases List.append_eq_nil.mp h with ⟨h1, _⟩
      exact (List.append_eq_nil.mp h1).2
  | cons c t ih =>
    simp only [isSubB, Bool.or_eq_true, isPreB_iff, ih]
    constructor
    · rintro (⟨z, hz⟩ | ⟨u, v, hu⟩)
      · exact ⟨[], z, hz⟩
      · exact ⟨c :: u, v, by simp [hu]⟩
    · rintro ⟨u, v, hu⟩
      cases u with
      | nil => exact Or.inl ⟨v, by simpa using hu⟩
      | cons d u =>
        injection hu with h1 h2
        exact Or.inr ⟨u, v, h2⟩

/-! Unfolding equations of `replaceAll`. -/

theorem scanRepl_skip (pat repl : List Char) :
    ∀ k s, scanRepl pat repl k s = scanRepl pat repl 0 (List.drop k s) := by
  intro k
  induction k with
  | zero => intro s; simp
  | succ k ih =>
    intro s
    cases s with
    | nil => simp [scanRepl]
    | cons c rest => simpa [scanRepl] using ih rest

theorem replaceAll_nil (pat repl : List Char) : replaceAll pat repl [] = [] := rfl

theorem replaceAll_pos {pat : List Char} (repl : List Char) {c : Char} {rest : List Char}
    (hne : pat ≠ []) (h : IsPre pat (c :: rest)) :
    replaceAll pat repl (c :: rest) =
      repl ++ replaceAll pat repl (List.drop pat.length (c :: rest)) := by
  have hb : isPreB pat (c :: rest) = true := isPreB_iff.mpr h
  have hemp : pat.isEmpty = false := by
    cases pat with
    | nil => exact absurd rfl hne
    | cons a p => rfl
  show scanRepl pat repl 0 (c :: rest) = _
  rw [scanRepl]
  simp only [hemp, hb, Bool.not_false, Bool.and_self, if_pos]
  rw [scanRepl_skip]
  have hlen : 1 ≤ pat.length := by
    cases pat with
    | nil => exact absurd rfl hne
    | cons a p => simp
  congr 1
  show replaceAll pat repl (List.drop (pat.length - 1) rest) = _
  congr 1
  cases pat with
  | nil => exact absurd rfl hne
  | cons a p => simp [List.drop]

theorem replaceAll_neg {pat : List Char} (repl : List Char) {c : Char} {rest : List Char}
    (h : ¬ IsPre pat (c :: rest)) :
    replaceAll pat repl (c :: rest) = c :: replaceAll pat repl rest := by
  have hb : isPreB pat (c :: rest) = false := by
    cases hh : isPreB pat (c :: rest) with
    | false => rfl
    | true => exact absurd (isPreB_iff.mp hh) h
  show scanRepl pat repl 0 (c :: rest) = _
  rw [scanRepl]
  simp only [hb, Bool.and_false, Bool.false_eq_true, if_neg, not_false_eq_true]
  rfl

/-! Structural lemmas about occurrences. -/

theorem isPre_length {p s : List Char} (h : IsPre p s) : p.length ≤ s.length := by
  obtain ⟨t, rfl⟩ := h
  simp

theorem isPre_rfl (p : List Char) : IsPre p p := ⟨[], by simp⟩

theorem isPre_append (p t : List Char) : IsPre p (p ++ t) := ⟨t, rfl⟩

theorem isPre_nil_iff {p : List Char} : IsPre p [] ↔ p = [] := by
  constructor
  · rintro ⟨t, ht⟩
    exact (List.append_eq_nil.mp ht).1
  · rintro rfl; exact ⟨[], rfl⟩

theorem preTotal {p q r : List Char} (hp : IsPre p r) (hq : IsPre q r) :
    IsPre p q ∨ IsPre q p := by
  induction r generalizing p q with
  | nil =>
    rw [isPre_nil_iff] at hp hq
    subst hp; subst hq; exact Or.inl ⟨[], rfl⟩
  | cons c r ih =>
    cases p with
    | nil => exact Or.inl ⟨q, rfl⟩
    | cons a p =>
      cases q with
      | nil => exact Or.inr ⟨a :: p, rfl⟩
      | cons b q =>
        obtain ⟨t, ht⟩ := hp
        obtain ⟨u, hu⟩ := hq
        injection ht with h1 h2
        injection hu with h3 h4
        subst h1; subst h3
        rcases ih ⟨t, h2⟩ ⟨u, h4⟩ with h | h
        · obtain ⟨z, hz⟩ := h
          exact Or.inl ⟨z, by rw [List.cons_append, hz]⟩
        · obtain ⟨z, hz⟩ := h
          exact Or.inr ⟨z, by rw [List.cons_append, hz]⟩

theorem isPre_antisym {p q : List Char} (h : IsPre p q) (hl : q.length ≤ p.length) :
    p = q := by
  obtain ⟨t, rfl⟩ := h
  have hlen : p.length + t.length ≤ p.length := by simpa using hl
  have ht : t = [] := List.eq_nil_of_length_eq_zero (by omega)
  subst ht; simp

theorem pre_append_short {p a b : List Char} (h : IsPre p (a ++ b))
    (hl : p.length ≤ a.length) : IsPre p a := by
  rcases preTotal h (isPre_append a b) with h' | h'
  · exact h'
  · have hap : a = p := isPre_antisym h' hl
    rw [← hap]
    exact isPre_rfl a

theorem isPre_isSub {p s : List Char} (h : IsPre p s) : IsSub p s := by
  obtain ⟨t, rfl⟩ := h
  exact ⟨[], t, rfl⟩

theorem isSub_cons {p t : List Char} (c : Char) (h : IsSub p t) : IsSub p (c :: t) := by
  obtain ⟨u, v, rfl⟩ := h
  exact ⟨c :: u, v, rfl⟩

theorem isSub_cons_cases {p t : List Char} {c : Char} (h : IsSub p (c :: t)) :
    IsPre p (c :: t) ∨ IsSub p t := by
  obtain ⟨u, v, hu⟩ := h
  cases u with
  | nil => exact Or.inl ⟨v, by simpa using hu⟩
  | cons d u =>
    injection hu with h1 h2
    exact Or.inr ⟨u, v, h2⟩

theorem isSub_append_r {p b : List Char} (a : List Char) (h : IsSub p b) :
    IsSub p (a ++ b) := by
  obtain ⟨u, v, rfl⟩ := h
  exact ⟨a ++ u, v, by simp⟩

theorem isSub_append_l {p a : List Char} (b : List Char) (h : IsSub p a) :
    IsSub p (a ++ b) := by
  obtain ⟨u, v, rfl⟩ := h
  exact ⟨u, v ++ b, by simp⟩

theorem isSub_drop_lift {p s : List Char} (k : Nat) (h : IsSub p (List.drop k s)) :
    IsSub p s := by
  have := isSub_append_r (List.take k s) h
  rwa [List.take_append_drop] at this

theorem isSub_of_cons_sub {p t : List Char} {c : Char} (h : ¬ IsSub p (c :: t)) :
    ¬ IsSub p t := fun h' => h (isSub_cons c h')

theorem isPre_append_cases {p a b : List Char} (h : IsPre p (a ++ b)) :
    IsPre p a ∨ ∃ y, p = a ++ y ∧ IsPre y b := by
  rcases Nat.le_total p.length a.length with hl | hl
  · exact Or.inl (pre_append_short h hl)
  · rcases preTotal h (isPre_append a b) with h' | h'
    · exact Or.inl h'
    · obtain ⟨y, hy⟩ := h'
      refine Or.inr ⟨y, hy.symm, ?_⟩
      obtain ⟨t, ht⟩ := h
      rw [← hy] at ht
      rw [List.append_assoc] at ht
      exact ⟨t, List.append_cancel_left ht⟩

theorem isSub_append_cases {p a b : List Char} (h : IsSub p (a ++ b)) :
    IsSub p a ∨ IsSub p b ∨
      ∃ x y, p = x ++ y ∧ x ≠ [] ∧ y ≠ [] ∧ IsSuf x a ∧ IsPre y b := by
  induction a generalizing p with
  | nil => exact Or.inr (Or.inl (by simpa using h))
  | cons c a ih =>
    rw [List.cons_append] at h
    rcases isSub_cons_cases h with hp | hs
    · cases p with
      | nil => exact Or.inl ⟨[], c :: a, rfl⟩
      | cons d p =>
        obtain ⟨t, ht⟩ := hp
        injection ht with h1 h2
        subst h1
        rcases isPre_append_cases (⟨t, h2⟩ : IsPre p (a ++ b)) with h' | ⟨y, hy, hyb⟩
        · obtain ⟨z, hz⟩ := h'
          exact Or.inl ⟨[], z, by rw [← hz]; rfl⟩
        · cases y with
          | nil =>
            refine Or.inl ⟨[], [], ?_⟩
            rw [hy]; simp
          | cons e y =>
            refine Or.inr (Or.inr ⟨d :: a, e :: y, ?_, by simp, by simp, ⟨[], rfl⟩, hyb⟩)
            rw [hy]; rfl
    · rcases ih hs with h' | h' | ⟨x, y, hxy, hx, hy, hsa, hpb⟩
      · exact Or.inl (isSub_cons c h')
      · exact Or.inr (Or.inl h')
      · obtain ⟨t, ht⟩ := hsa
        exact Or.inr (Or.inr ⟨x, y, hxy, hx, hy, ⟨c :: t, by rw [← ht]; rfl⟩, hpb⟩)

theorem isSuf_trans {p q r : List Char} (h1 : IsSuf p q) (h2 : IsSuf q r) : IsSuf p r := by
  obtain ⟨t, rfl⟩ := h1
  obtain ⟨u, rfl⟩ := h2
  exact ⟨u ++ t, by simp⟩

theorem split_take_drop {pat x y : List Char} (h : pat = x ++ y) :
    x = List.take x.length pat ∧ y = List.drop x.length pat := by
  subst h
  constructor
  · rw [List.take_left]
  · rw [List.drop_left]

theorem isSub_nil_elim {x : List Char} (h : IsSub x []) : x = [] := by
  obtain ⟨u, v, huv⟩ := h
  rcases List.append_eq_nil.mp huv with ⟨h1, _⟩
  rcases List.append_eq_nil.mp h1 with ⟨_, h2⟩
  exact h2

/-! The universally quantified facts the decidable checkers certify. -/

theorem noTakeSuf_spec {pat r : List Char} (h : noTakeSuf pat r = true) :
    ∀ x y, pat = x ++ y → x ≠ [] → y ≠ [] → ¬ IsSuf x r := by
  intro x y hxy hx hy hsuf
  obtain ⟨htake, hdrop⟩ := split_take_drop hxy
  have hk1 : 0 < x.length := List.length_pos.mpr hx
  have hk2 : x.length < pat.length := by
    subst hxy
    have : 0 < y.length := List.length_pos.mpr hy
    simp only [List.length_append]
    omega
  have := List.all_eq_true.mp h x.length (List.mem_range.mpr hk2)
  rw [← htake] at this
  rcases Bool.or_eq_true_iff.mp this with h' | h'
  · have : x.length = 0 := by simpa using h'
    omega
  · rw [Bool.not_eq_true', ← Bool.not_eq_true] at h'
    exact h' (isSufB_iff.mpr hsuf)

theorem noDropPre_spec {pat r : List Char} (h : noDropPre pat r = true) :
    ∀ x y, pat = x ++ y → x ≠ [] → y ≠ [] → ¬ IsPre y r := by
  intro x y hxy hx hy hpre
  obtain ⟨htake, hdrop⟩ := split_take_drop hxy
  have hk1 : 0 < x.length := List.length_pos.mpr hx
  have hk2 : x.length < pat.length := by
    subst hxy
    have : 0 < y.length := List.length_pos.mpr hy
    simp only [List.length_append]
    omega
  have := List.all_eq_true.mp h x.length (List.mem_range.mpr hk2)
  rw [← hdrop] at this
  rcases Bool.or_eq_true_iff.mp this with h' | h'
  · have : x.length = 0 := by simpa using h'
    omega
  · rw [Bool.not_eq_true', ← Bool.not_eq_true] at h'
    exact h' (isPreB_iff.mpr hpre)

theorem noDropOverlap_spec {x r : List Char} (h : noDropOverlap x r = true) :
    ∀ q, q ≠ [] → IsSuf q x → ¬ IsPre q r ∧ ¬ IsPre r q := by
  intro q hq hsuf
  obtain ⟨t, ht⟩ := hsuf
  have hqd : q = List.drop t.length x := by
    rw [← ht, List.drop_left]
  have hk : t.length < x.length := by
    rw [← ht]
    have : 0 < q.length := List.length_pos.mpr hq
    simp only [List.length_append]
    omega
  have := List.all_eq_true.mp h t.length (List.mem_range.mpr hk)
  rw [← hqd] at this
  rw [Bool.and_eq_true] at this
  obtain ⟨h1, h2⟩ := this
  rw [Bool.not_eq_true', ← Bool.not_eq_true] at h1 h2
  constructor
  · exact fun hc => h1 (isPreB_iff.mpr hc)
  · exact fun hc => h2 (isPreB_iff.mpr hc)

/-! Core properties of the scan. -/

/-- If a nonempty strict trailing part `y` of `pat` begins the output of the
scan, it already began the input: the scan cannot manufacture it out of a
replacement, provided no such trailing part begins `replR`. -/
theorem suffix_pre_out (pat patR replR : List Char) (hRne : patR ≠ [])
    (hlen : pat.length ≤ replR.length)
    (hg4 : ∀ x y, pat = x ++ y → x ≠ [] → y ≠ [] → ¬ IsPre y replR) :
    ∀ n s, s.length ≤ n → ∀ x y, pat = x ++ y → x ≠ [] → y ≠ [] →
      IsPre y (replaceAll patR replR s) → IsPre y s := by
  intro n
  induction n with
  | zero =>
    intro s hs x y hxy hx hy hpre
    have hnil : s = [] := List.eq_nil_of_length_eq_zero (Nat.le_zero.mp hs)
    subst hnil
    rw [replaceAll_nil] at hpre
    exact absurd (isPre_nil_iff.mp hpre) hy
  | succ n ih =>
    intro s hs x y hxy hx hy hpre
    cases s with
    | nil =>
      rw [replaceAll_nil] at hpre
      exact absurd (isPre_nil_iff.mp hpre) hy
    | cons c rest =>
      by_cases hm : IsPre patR (c :: rest)
      · rw [replaceAll_pos replR hRne hm] at hpre
        have hyl : y.length ≤ replR.length := by
          have h1 : y.length ≤ pat.length := by
            subst hxy; simp
          omega
        exact absurd (pre_append_short hpre hyl) (hg4 x y hxy hx hy)
      · rw [replaceAll_neg replR hm] at hpre
        cases y with
        | nil => exact absurd rfl hy
        | cons d y' =>
          obtain ⟨t, ht⟩ := hpre
          injection ht with h1 h2
          subst h1
          cases y' with
          | nil => exact ⟨rest, rfl⟩
          | cons e y'' =>
            have hxy' : pat = (x ++ [d]) ++ (e :: y'') := by
              rw [hxy]; simp
            have hlen' : rest.length ≤ n := by
              have : rest.length + 1 ≤ n + 1 := by simpa using hs
              omega
            have hrec : IsPre (e :: y'') rest :=
              ih rest hlen' (x ++ [d]) (e :: y'') hxy' (by simp) (by simp) ⟨t, h2⟩
            obtain ⟨u, hu⟩ := hrec
            exact ⟨u, by rw [List.cons_append, hu]⟩

/-- Core exhaustiveness property of the scan: after `replaceAll patR replR`,
`pat` occurs nowhere in the output, provided it did not occur in the input
(or is the scanned pattern itself), does not occur in `replR`, and cannot
straddle a boundary of an inserted `replR`. -/
theorem no_sub_out (pat patR replR : List Char) (hRne : patR ≠ []) (hne : pat ≠ [])
    (hlen : pat.length ≤ replR.length)
    (hg2 : ¬ IsSub pat replR)
    (hg3 : ∀ x y, pat = x ++ y → x ≠ [] → y ≠ [] → ¬ IsSuf x replR)
    (hg4 : ∀ x y, pat = x ++ y → x ≠ [] → y ≠ [] → ¬ IsPre y replR) :
    ∀ n s, s.length ≤ n → (patR = pat ∨ ¬ IsSub pat s) →
      ¬ IsSub pat (replaceAll patR replR s) := by
  intro n
  induction n with
  | zero =>
    intro s hs _ hsub
    have hnil : s = [] := List.eq_nil_of_length_eq_zero (Nat.le_zero.mp hs)
    subst hnil
    rw [replaceAll_nil] at hsub
    exact hne (isSub_nil_elim hsub)
  | succ n ih =>
    intro s hs H hsub
    cases s with
    | nil =>
      rw [replaceAll_nil] at hsub
      exact hne (isSub_nil_elim hsub)
    | cons c rest =>
      have hrestlen : rest.length ≤ n := by
        have : rest.length + 1 ≤ n + 1 := by simpa using hs
        omega
      by_cases hm : IsPre patR (c :: rest)
      · rw [replaceAll_pos replR hRne hm] at hsub
        have hRpos : 0 < patR.length := List.length_pos.mpr hRne
        have hdlen : (List.drop patR.length (c :: rest)).length ≤ n := by
          rw [List.length_drop]
          simp only [List.length_cons]
          omega
        have H' : patR = pat ∨ ¬ IsSub pat (List.drop patR.length (c :: rest)) := by
          rcases H with h | h
          · exact Or.inl h
          · exact Or.inr (fun hc => h (isSub_drop_lift _ hc))
        rcases isSub_append_cases hsub with h1 | h1 | ⟨u, v, huv, hu, hv, hsu, hpv⟩
        · exact hg2 h1
        · exact ih _ hdlen H' h1
        · exact hg3 u v huv hu hv hsu
      · rw [replaceAll_neg replR hm] at hsub
        have Hrest : patR = pat ∨ ¬ IsSub pat rest := by
          rcases H with h | h
          · exact Or.inl h
          · exact Or.inr (isSub_of_cons_sub h)
        rcases isSub_cons_cases hsub with h1 | h1
        · cases hp : pat with
          | nil => exact hne hp
          | cons d pt =>
            obtain ⟨t, ht⟩ := h1
            rw [hp, List.cons_append] at ht
            injection ht with hdc ht2
            have hpre_pat : IsPre pat (c :: rest) := by
              cases pt with
              | nil => exact ⟨rest, by rw [hp, hdc]; rfl⟩
              | cons e pt' =>
                have hstep : IsPre (e :: pt') rest :=
                  suffix_pre_out pat patR replR hRne hlen hg4 rest.length rest
                    le_rfl [c] (e :: pt') (by rw [hp, hdc]; rfl) (by simp) (by simp)
                    ⟨t, ht2⟩
                obtain ⟨u, hu⟩ := hstep
                exact ⟨u, by rw [hp, hdc, List.cons_append, hu]⟩
            rcases H with hEq | hNo
            · exact hm (hEq ▸ hpre_pat)
            · exact hNo (isPre_isSub hpre_pat)
        · exact ih rest hrestlen Hrest h1

/-- A scan over content free of the pattern copies the content unchanged. -/
theorem replaceAll_no_sub (pat repl : List Char) :
    ∀ s, ¬ IsSub pat s → replaceAll pat repl s = s := by
  intro s
  induction s with
  | nil => intro _; rfl
  | cons c rest ih =>
    intro h
    have hm : ¬ IsPre pat (c :: rest) := fun hp => h (isPre_isSub hp)
    rw [replaceAll_neg repl hm, ih (isSub_of_cons_sub h)]

/-- Wherever the pattern occurred, the scan inserts the replacement, so the
replacement occurs in the output. -/
theorem repl_sub_out (pat repl : List Char) (hne : pat ≠ []) :
    ∀ s, IsSub pat s → IsSub repl (replaceAll pat repl s) := by
  intro s
  induction s with
  | nil =>
    intro h
    exact absurd (isSub_nil_elim h) hne
  | cons c rest ih =>
    intro h
    by_cases hm : IsPre pat (c :: rest)
    · rw [replaceAll_pos repl hne hm]
      exact isSub_append_l _ ⟨[], [], by simp⟩
    · rw [replaceAll_neg repl hm]
      rcases isSub_cons_cases h with h1 | h1
      · exact absurd h1 hm
      · exact isSub_cons c (ih h1)

/-- A leading occurrence of `q` survives the scan for an unrelated pattern:
no trailing part of `q` interacts with `patR` in either direction. -/
theorem pre_preserved (patR replR : List Char) :
    ∀ q s, IsPre q s →
      (∀ q2, q2 ≠ [] → IsSuf q2 q → ¬ IsPre q2 patR ∧ ¬ IsPre patR q2) →
      IsPre q (replaceAll patR replR s) := by
  intro q
  induction q with
  | nil => intro s _ _; exact ⟨_, rfl⟩
  | cons d q' ih =>
    intro s hq hcond
    obtain ⟨z, hz⟩ := hq
    cases s with
    | nil => exact absurd hz (by simp)
    | cons c rest =>
      rw [List.cons_append] at hz
      injection hz with h1 h2
      have hm : ¬ IsPre patR (c :: rest) := by
        intro hmm
        have hcr : IsPre patR ((c :: q') ++ z) := by
          rw [List.cons_append, h2]; exact hmm
        rcases preTotal hcr (isPre_append (c :: q') z) with h' | h'
        · exact (hcond (c :: q') (by simp) ⟨[], by rw [h1]; rfl⟩).2 h'
        · exact (hcond (c :: q') (by simp) ⟨[], by rw [h1]; rfl⟩).1 h'
      rw [replaceAll_neg replR hm]
      have hcond' : ∀ q2, q2 ≠ [] → IsSuf q2 q' →
          ¬ IsPre q2 patR ∧ ¬ IsPre patR q2 := by
        intro q2 hq2 hsuf
        exact hcond q2 hq2 (isSuf_trans hsuf ⟨[c], by rw [h1]; rfl⟩)
      obtain ⟨u, hu⟩ := ih rest ⟨z, h2⟩ hcond'
      exact ⟨u, by rw [h1, List.cons_append, hu]⟩

/-- An occurrence of `x` survives the scan for an unrelated pattern `patR`:
`x` contains no `patR`-match and no `patR`-match can straddle its borders. -/
theorem sub_preserved (x patR replR : List Char) (hRne : patR ≠ [])
    (hc2 : ¬ IsSub x patR)
    (hc4 : ∀ u v, x = u ++ v → u ≠ [] → v ≠ [] → ¬ IsSuf u patR)
    (hcq : ∀ q2, q2 ≠ [] → IsSuf q2 x → ¬ IsPre q2 patR ∧ ¬ IsPre patR q2) :
    ∀ n s, s.length ≤ n → IsSub x s → IsSub x (replaceAll patR replR s) := by
  intro n
  induction n with
  | zero =>
    intro s hs hsub
    have hnil : s = [] := List.eq_nil_of_length_eq_zero (Nat.le_zero.mp hs)
    subst hnil
    rw [isSub_nil_elim hsub, replaceAll_nil]
    exact ⟨[], [], rfl⟩
  | succ n ih =>
    intro s hs hsub
    cases s with
    | nil =>
      rw [isSub_nil_elim hsub, replaceAll_nil]
      exact ⟨[], [], rfl⟩
    | cons c rest =>
      have hrestlen : rest.length ≤ n := by
        have : rest.length + 1 ≤ n + 1 := by simpa using hs
        omega
      by_cases hm : IsPre patR (c :: rest)
      · rw [replaceAll_pos replR hRne hm]
        obtain ⟨z, hz⟩ := hm
        have hsub' : IsSub x (patR ++ z) := by rw [hz]; exact hsub
        rcases isSub_append_cases hsub' with h1 | h1 | ⟨u, v, huv, hu, hv, hsu, _⟩
        · exact absurd h1 hc2
        · have hzdrop : z = List.drop patR.length (c :: rest) := by
            rw [← hz, List.drop_left]
          have hzlen : z.length ≤ n := by
            have := congrArg List.length hz
            simp only [List.length_append, List.length_cons] at this
            have hRpos : 0 < patR.length := List.length_pos.mpr hRne
            omega
          apply isSub_append_r
          rw [← hzdrop]
          exact ih z hzlen h1
        · exact absurd hsu (hc4 u v huv hu hv)
      · rcases isSub_cons_cases hsub with h1 | h1
        · exact isPre_isSub (pre_preserved patR replR x (c :: rest) h1 hcq)
        · rw [replaceAll_neg replR hm]
          exact isSub_cons c (ih rest hrestlen h1)

/-! Instantiation at the two concrete rules of the script. -/

theorem not_isSub_of_false {p s : List Char} (h : isSubB p s = false) : ¬ IsSub p s := by
  intro hc
  rw [isSubB_iff.mpr hc] at h
  exact Bool.noConfusion h

/-- After the first substitution, its insecure pattern occurs nowhere. -/
theorem sub1_no_pat1 (s : List Char) : ¬ IsSub pat1 (subAspectLogo s) :=
  no_sub_out pat1 pat1 repl1 (by decide) (by decide) (by decide)
    (not_isSub_of_false (by decide))
    (noTakeSuf_spec (by decide))
    (noDropPre_spec (by decide))
    s.length s le_rfl (Or.inl rfl)

/-- After the second substitution, its insecure pattern occurs nowhere. -/
theorem sub2_no_pat2 (t : List Char) : ¬ IsSub pat2 (subAnchor t) :=
  no_sub_out pat2 pat2 repl2 (by decide) (by decide) (by decide)
    (not_isSub_of_false (by decide))
    (noTakeSuf_spec (by decide))
    (noDropPre_spec (by decide))
    t.length t le_rfl (Or.inl rfl)

/-- The second substitution cannot create an occurrence of the first pattern. -/
theorem sub2_keeps_no_pat1 {t : List Char} (h : ¬ IsSub pat1 t) :
    ¬ IsSub pat1 (subAnchor t) :=
  no_sub_out pat1 pat2 repl2 (by decide) (by decide) (by decide)
    (not_isSub_of_false (by decide))
    (noTakeSuf_spec (by decide))
    (noDropPre_spec (by decide))
    t.length t le_rfl (Or.inr h)

theorem applyRules_no_pat1 (s : List Char) : ¬ IsSub pat1 (applyRules s) :=
  sub2_keeps_no_pat1 (sub1_no_pat1 s)

theorem applyRules_no_pat2 (s : List Char) : ¬ IsSub pat2 (applyRules s) :=
  sub2_no_pat2 _

/-- Content free of both patterns passes through the rules unchanged. -/
theorem applyRules_of_no_sub {s : List Char} (h1 : ¬ IsSub pat1 s)
    (h2 : ¬ IsSub pat2 s) : applyRules s = s := by
  show replaceAll pat2 repl2 (replaceAll pat1 repl1 s) = s
  rw [replaceAll_no_sub pat1 repl1 s h1]
  exact replaceAll_no_sub pat2 repl2 s h2

/-- Idempotence of the rule set on arbitrary content. -/
theorem applyRules_idem (s : List Char) : applyRules (applyRules s) = applyRules s :=
  applyRules_of_no_sub (applyRules_no_pat1 s) (applyRules_no_pat2 s)

/-- The first substitution never disturbs an anchor-pattern occurrence. -/
theorem sub1_keeps_pat2 {s : List Char} (h : IsSub pat2 s) :
    IsSub pat2 (subAspectLogo s) :=
  sub_preserved pat2 pat1 repl1 (by decide)
    (not_isSub_of_false (by decide))
    (noTakeSuf_spec (by decide))
    (noDropOverlap_spec (by decide))
    s.length s le_rfl h

/-- The second substitution never disturbs an occurrence of the first
replacement string. -/
theorem sub2_keeps_repl1 {t : List Char} (h : IsSub repl1 t) :
    IsSub repl1 (subAnchor t) :=
  sub_preserved repl1 pat2 repl2 (by decide)
    (not_isSub_of_false (by decide))
    (noTakeSuf_spec (by decide))
    (noDropOverlap_spec (by decide))
    t.length t le_rfl h

/-- Content containing the first pattern contains the first replacement after
both rules run. -/
theorem applyRules_repl1 {s : List Char} (h : IsSub pat1 s) :
    IsSub repl1 (applyRules s) :=
  sub2_keeps_repl1 (repl_sub_out pat1 repl1 (by decide) s h)

/-- Content containing the second pattern contains the second replacement
after both rules run. -/
theorem applyRules_repl2 {s : List Char} (h : IsSub pat2 s) :
    IsSub repl2 (applyRules s) :=
  repl_sub_out pat2 repl2 (by decide) _ (sub1_keeps_pat2 h)

/-- The scan refines the specification relation `Replaced`. -/
theorem replaceAll_replaced (pat repl : List Char) (hne : pat ≠ []) :
    ∀ n s, s.length ≤ n → Replaced pat repl s (replaceAll pat repl s) := by
  intro n
  induction n with
  | zero =>
    intro s hs
    have hnil : s = [] := List.eq_nil_of_length_eq_zero (Nat.le_zero.mp hs)
    subst hnil
    exact Replaced.done
  | succ n ih =>
    intro s hs
    cases s with
    | nil => exact Replaced.done
    | cons c rest =>
      by_cases hm : IsPre pat (c :: rest)
      · rw [replaceAll_pos repl hne hm]
        obtain ⟨z, hz⟩ := hm
        rw [← hz, List.drop_left]
        have hzlen : z.length ≤ n := by
          have := congrArg List.length hz
          have hppos : 0 < pat.length := List.length_pos.mpr hne
          simp only [List.length_append, List.length_cons] at this
          have hslen : rest.length + 1 ≤ n + 1 := by simpa using hs
          omega
        exact Replaced.hit (ih z hzlen)
      · rw [replaceAll_neg repl hm]
        have hrest : rest.length ≤ n := by
          have : rest.length + 1 ≤ n + 1 := by simpa using hs
          omega
        exact Replaced.copy c hm (ih rest hrest)

/-! Helper lemmas about the file and run model. -/

theorem fix_file_path (f : FSFile) : (fix_http_urls_in_file f).file.path = f.path := by
  unfold fix_http_urls_in_file
  split
  · rfl
  · split
    · split
      · rfl
      · rfl
    · rfl

theorem stepFile_path (f : FSFile) : (stepFile f).file.path = f.path := by
  unfold stepFile
  split
  · exact fix_file_path f
  · rfl

theorem fix_read_error {f : FSFile} (h : f.readFails = true) :
    fix_http_urls_in_file f =
      { file := f, wasRead := true, wasWritten := false, fixed := false,
        errorMsg := some (errorLine f) } := by
  unfold fix_http_urls_in_file
  rw [if_pos h]

theorem fix_fixed {f : FSFile} (hr : f.readFails = false) (hw : f.writeFails = false)
    (hc : applyRules f.content ≠ f.content) :
    fix_http_urls_in_file f =
      { file := { f with content := applyRules f.content }, wasRead := true,
        wasWritten := true, fixed := true, errorMsg := none } := by
  unfold fix_http_urls_in_file
  rw [if_neg (by simp [hr]), if_pos hc, if_neg (by simp [hw])]

theorem fix_write_error {f : FSFile} (hr : f.readFails = false) (hw : f.writeFails = true)
    (hc : applyRules f.content ≠ f.content) :
    fix_http_urls_in_file f =
      { file := f, wasRead := true, wasWritten := true, fixed := false,
        errorMsg := some (errorLine f) } := by
  unfold fix_http_urls_in_file
  rw [if_neg (by simp [hr]), if_pos hc, if_pos hw]

theorem fix_nofix_of_unchanged {f : FSFile} (hc : applyRules f.content = f.content) :
    (fix_http_urls_in_file f).fixed = false ∧ (fix_http_urls_in_file f).file = f ∧
      (fix_http_urls_in_file f).wasWritten = false := by
  unfold fix_http_urls_in_file
  split
  · exact ⟨rfl, rfl, rfl⟩
  · rw [if_neg (not_not_intro hc)]
    exact ⟨rfl, rfl, rfl⟩

theorem fix_fixed_iff (f : FSFile) :
    (fix_http_urls_in_file f).fixed = true ↔
      f.readFails = false ∧ applyRules f.content ≠ f.content ∧ f.writeFails = false := by
  by_cases hr : f.readFails = true
  · simp [fix_http_urls_in_file, hr]
  · rw [Bool.not_eq_true] at hr
    by_cases hc : applyRules f.content ≠ f.content
    · by_cases hw : f.writeFails = true
      · simp [fix_http_urls_in_file, hr, hc, hw]
      · rw [Bool.not_eq_true] at hw
        simp [fix_http_urls_in_file, hr, hc, hw]
    · rw [not_not] at hc
      simp [fix_http_urls_in_file, hr, hc]

theorem fix_error_eq (f : FSFile) :
    (fix_http_urls_in_file f).errorMsg =
      (if f.readFails = true ∨ (applyRules f.content ≠ f.content ∧ f.writeFails = true)
        then some (errorLine f) else none) := by
  by_cases hr : f.readFails = true
  · simp [fix_http_urls_in_file, hr]
  · rw [Bool.not_eq_true] at hr
    by_cases hc : applyRules f.content ≠ f.content
    · by_cases hw : f.writeFails = true
      · simp [fix_http_urls_in_file, hr, hc, hw]
      · rw [Bool.not_eq_true] at hw
        simp [fix_http_urls_in_file, hr, hc, hw]
    · rw [not_not] at hc
      simp [fix_http_urls_in_file, hr, hc]

theorem stepFile_java {f : FSFile} (h : hasJavaExt f.path = true) :
    stepFile f = fix_http_urls_in_file f := by
  unfold stepFile
  rw [if_pos h]

theorem stepFile_skip {f : FSFile} (h : hasJavaExt f.path = false) :
    stepFile f = skipOutcome f := by
  unfold stepFile
  rw [if_neg (by simp [h])]

theorem step_nofix {f : FSFile} (hc : applyRules f.content = f.content) :
    (stepFile f).fixed = false ∧ (stepFile f).file = f ∧
      (stepFile f).wasWritten = false := by
  unfold stepFile
  split
  · exact fix_nofix_of_unchanged hc
  · exact ⟨rfl, rfl, rfl⟩

theorem main_outcomes {fs : FileSystem} (h : fs.rootExists = true) :
    (main_run fs).outcomes = fs.files.map stepFile := by
  unfold main_run
  rw [if_neg (by simp [h])]

theorem main_fixedPaths {fs : FileSystem} (h : fs.rootExists = true) :
    (main_run fs).fixedPaths = fixedPathsOf fs.files := by
  unfold main_run
  rw [if_neg (by simp [h])]

theorem main_errors {fs : FileSystem} (h : fs.rootExists = true) :
    (main_run fs).errors = errorsOf fs.files := by
  unfold main_run
  rw [if_neg (by simp [h])]

theorem main_exit (fs : FileSystem) : (main_run fs).exitCode = 0 := by
  unfold main_run
  split
  · rfl
  · rfl

theorem mem_fixedPathsOf {files : List FSFile} {g : FSFile} (hg : g ∈ files)
    (hfix : (stepFile g).fixed = true) : g.path ∈ fixedPathsOf files := by
  unfold fixedPathsOf
  rw [List.mem_filterMap]
  refine ⟨stepFile g, List.mem_map_of_mem stepFile hg, ?_⟩
  rw [if_pos hfix, stepFile_path]

theorem fixedPathsOf_mem_elim {files : List FSFile} {p : String}
    (h : p ∈ fixedPathsOf files) :
    ∃ g ∈ files, g.path = p ∧ (stepFile g).fixed = true := by
  unfold fixedPathsOf at h
  rw [List.mem_filterMap] at h
  obtain ⟨o, ho, hoeq⟩ := h
  rw [List.mem_map] at ho
  obtain ⟨g, hg, rfl⟩ := ho
  by_cases hf : (stepFile g).fixed = true
  · rw [if_pos hf] at hoeq
    have hpp := Option.some.inj hoeq
    exact ⟨g, hg, by rw [← hpp, stepFile_path], hf⟩
  · rw [if_neg hf] at hoeq
    exact absurd hoeq (by simp)

theorem nodup_path_inj {files : List FSFile} (hnd : (files.map FSFile.path).Nodup)
    {g g' : FSFile} (hg : g ∈ files) (hg' : g' ∈ files) (hp : g.path = g'.path) :
    g = g' := by
  induction files with
  | nil => cases hg
  | cons f rest ih =>
    rw [List.map_cons, List.nodup_cons] at hnd
    rcases List.mem_cons.mp hg with rfl | hgr
    · rcases List.mem_cons.mp hg' with rfl | hgr'
      · rfl
      · have hmem : g'.path ∈ rest.map FSFile.path := List.mem_map_of_mem _ hgr'
        rw [← hp] at hmem
        exact absurd hmem hnd.1
    · rcases List.mem_cons.mp hg' with rfl | hgr'
      · have hmem : g.path ∈ rest.map FSFile.path := List.mem_map_of_mem _ hgr
        rw [hp] at hmem
        exact absurd hmem hnd.1
      · exact ih hnd.2 hgr hgr'

theorem not_mem_fixedPathsOf {files : List FSFile} {g : FSFile}
    (hnd : (files.map FSFile.path).Nodup) (hg : g ∈ files)
    (hfix : (stepFile g).fixed = false) : g.path ∉ fixedPathsOf files := by
  intro hmem
  obtain ⟨g', hg', hp, hf'⟩ := fixedPathsOf_mem_elim hmem
  have heq : g' = g := nodup_path_inj hnd hg' hg hp
  rw [heq, hfix] at hf'
  exact Bool.noConfusion hf'

theorem mem_errorsOf {files : List FSFile} {g : FSFile} {m : String} (hg : g ∈ files)
    (hm : (stepFile g).errorMsg = some m) : m ∈ errorsOf files := by
  unfold errorsOf
  rw [List.mem_filterMap]
  exact ⟨stepFile g, List.mem_map_of_mem stepFile hg, hm⟩

theorem fixedPathsOf_nil {files : List FSFile}
    (h : ∀ f ∈ files, (stepFile f).fixed = false) : fixedPathsOf files = [] := by
  unfold fixedPathsOf
  rw [List.filterMap_eq_nil_iff]
  intro o ho
  rw [List.mem_map] at ho
  obtain ⟨g, hg, rfl⟩ := ho
  rw [if_neg (by simp [h g hg])]

/-! Byte-level lemmas for the encoding claims. -/

theorem char_toNat_lt (c : Char) : c.toNat < 0x110000 := by
  rcases c.valid with h | h
  · show c.val.toNat < 0x110000
    omega
  · exact h.2

theorem encodeCharUtf8_lt {n : Nat} (hn : n < 0x110000) :
    ∀ b ∈ encodeCharUtf8 n, b < 0xF5 := by
  intro b hb
  unfold encodeCharUtf8 at hb
  by_cases h1 : n < 0x80
  · rw [if_pos h1] at hb
    simp at hb
    omega
  · rw [if_neg h1] at hb
    by_cases h2 : n < 0x800
    · rw [if_pos h2] at hb
      simp at hb
      have hd : n / 0x40 < 0x20 := Nat.div_lt_of_lt_mul (by omega)
      have hm : n % 0x40 < 0x40 := Nat.mod_lt _ (by omega)
      rcases hb with rfl | rfl <;> omega
    · rw [if_neg h2] at hb
      by_cases h3 : n < 0x10000
      · rw [if_pos h3] at hb
        simp at hb
        have hd : n / 0x1000 < 0x10 := Nat.div_lt_of_lt_mul (by omega)
        have hm1 : n / 0x40 % 0x40 < 0x40 := Nat.mod_lt _ (by omega)
        have hm : n % 0x40 < 0x40 := Nat.mod_lt _ (by omega)
        rcases hb with rfl | rfl | rfl <;> omega
      · rw [if_neg h3] at hb
        simp at hb
        have hd : n / 0x40000 < 5 := Nat.div_lt_of_lt_mul (by omega)
        have hm2 : n / 0x1000 % 0x40 < 0x40 := Nat.mod_lt _ (by omega)
        have hm1 : n / 0x40 % 0x40 < 0x40 := Nat.mod_lt _ (by omega)
        have hm : n % 0x40 < 0x40 := Nat.mod_lt _ (by omega)
        rcases hb with rfl | rfl | rfl | rfl <;> omega

theorem encodeUtf8_lt (cs : List Char) : ∀ b ∈ encodeUtf8 cs, b < 0xF5 := by
  intro b hb
  unfold encodeUtf8 at hb
  rw [List.mem_flatten] at hb
  obtain ⟨l, hl, hbl⟩ := hb
  rw [List.mem_map] at hl
  obtain ⟨c, _, rfl⟩ := hl
  exact encodeCharUtf8_lt (char_toNat_lt c) b hbl

theorem fixFileBytes_changed {bytes : List Nat}
    (h : applyRules (decodeUtf8Ignore bytes) ≠ decodeUtf8Ignore bytes) :
    fixFileBytes bytes = (true, encodeUtf8 (applyRules (decodeUtf8Ignore bytes))) := by
  unfold fixFileBytes
  rw [if_pos h]

theorem fixFileBytes_unchanged {bytes : List Nat}
    (h : applyRules (decodeUtf8Ignore bytes) = decodeUtf8Ignore bytes) :
    fixFileBytes bytes = (false, bytes) := by
  unfold fixFileBytes
  rw [if_neg (not_not_intro h)]

/-! The claims. -/

/-- C1: a file is reported as fixed — `fix_http_urls_in_file` returns `True`
and `main` records its path — exactly when applying the two rules to its
content changes it; stated per file for files whose read and write do not
raise, and at run level for runs whose files carry pairwise distinct paths. -/
theorem claim_C1_fixed_iff_changed :
    (∀ f : FSFile, f.readFails = false → f.writeFails = false →
      ((fix_http_urls_in_file f).fixed = true ↔ applyRules f.content ≠ f.content)) ∧
    (∀ fs : FileSystem, fs.rootExists = true →
      (fs.files.map FSFile.path).Nodup →
      ∀ g ∈ fs.files, hasJavaExt g.path = true → g.readFails = false →
        g.writeFails = false →
        (g.path ∈ (main_run fs).fixedPaths ↔ applyRules g.content ≠ g.content)) := by
  constructor
  · intro f hr hw
    rw [fix_fixed_iff]
    constructor
    · rintro ⟨_, hc, _⟩; exact hc
    · intro hc; exact ⟨hr, hc, hw⟩
  · intro fs hroot hnd g hg hj hr hw
    rw [main_fixedPaths hroot]
    constructor
    · intro hmem
      by_contra hc
      exact not_mem_fixedPathsOf hnd hg (step_nofix hc).1 hmem
    · intro hc
      apply mem_fixedPathsOf hg
      rw [stepFile_java hj, fix_fixed_iff]
      exact ⟨hr, hc, hw⟩

theorem claim_C1_witness :
    ((fix_http_urls_in_file fHit).fixed = true ↔
      applyRules fHit.content ≠ fHit.content) ∧
    (fHit.path ∈ (main_run fsDemo).fixedPaths ↔
      applyRules fHit.content ≠ fHit.content) := by
  constructor
  · exact claim_C1_fixed_iff_changed.1 fHit rfl rfl
  · exact claim_C1_fixed_iff_changed.2 fsDemo rfl (by decide) fHit (by decide)
      (by decide) rfl rfl

/-- C2: the rule set is idempotent on every content string, and a run over a
tree whose file contents are already images of the rules changes no file and
reports zero fixed files. -/
theorem claim_C2_idempotent :
    (∀ s : List Char, applyRules (applyRules s) = applyRules s) ∧
    (∀ fs : FileSystem, fs.rootExists = true →
      (∀ f ∈ fs.files, ∃ c, f.content = applyRules c) →
      (main_run fs).fixedPaths = [] ∧ ∀ f ∈ fs.files, (stepFile f).file = f) := by
  constructor
  · exact applyRules_idem
  · intro fs hroot hfixed
    have hnc : ∀ f ∈ fs.files, applyRules f.content = f.content := by
      intro f hf
      obtain ⟨c, hc⟩ := hfixed f hf
      rw [hc, applyRules_idem]
    constructor
    · rw [main_fixedPaths hroot]
      exact fixedPathsOf_nil (fun f hf => (step_nofix (hnc f hf)).1)
    · intro f hf
      exact (step_nofix (hnc f hf)).2.1

theorem claim_C2_witness :
    applyRules (applyRules pat1) = applyRules pat1 ∧
    (main_run fsFixed).fixedPaths = [] ∧
    (∀ f ∈ fsFixed.files, (stepFile f).file = f) := by
  refine ⟨claim_C2_idempotent.1 pat1, ?_⟩
  refine claim_C2_idempotent.2 fsFixed rfl ?_
  intro f hf
  rcases List.mem_cons.mp hf with rfl | hf2
  · exact ⟨pat1, rfl⟩
  · rcases List.mem_cons.mp hf2 with rfl | hf3
    · exact ⟨"hello".data, by decide⟩
    · cases hf3

/-- C3: for content containing `setHref("http://www.aspectsecurity.com")`,
after one application of the rules the secure form is present, no insecure
occurrence remains, and the first rule's pass satisfies `Replaced`: every
occurrence replaced, all characters outside the occurrences copied
unchanged. -/
theorem claim_C3_first_rule (s : List Char) (h : IsSub pat1 s) :
    IsSub repl1 (applyRules s) ∧ ¬ IsSub pat1 (applyRules s) ∧
      Replaced pat1 repl1 s (subAspectLogo s) :=
  ⟨applyRules_repl1 h, applyRules_no_pat1 s,
    replaceAll_replaced pat1 repl1 (by decide) s.length s le_rfl⟩

theorem claim_C3_witness :
    IsSub pat1 ("x".data ++ pat1 ++ "y".data) ∧
      (IsSub repl1 (applyRules ("x".data ++ pat1 ++ "y".data)) ∧
        ¬ IsSub pat1 (applyRules ("x".data ++ pat1 ++ "y".data)) ∧
        Replaced pat1 repl1 ("x".data ++ pat1 ++ "y".data)
          (subAspectLogo ("x".data ++ pat1 ++ "y".data))) :=
  ⟨⟨"x".data, "y".data, rfl⟩, claim_C3_first_rule _ ⟨"x".data, "y".data, rfl⟩⟩

/-- C4: for content containing `<a href="http://www.aspectsecurity.com">`,
after one application of the rules the secure anchor is present and no
insecure anchor occurrence remains. -/
theorem claim_C4_second_rule (s : List Char) (h : IsSub pat2 s) :
    IsSub repl2 (applyRules s) ∧ ¬ IsSub pat2 (applyRules s) :=
  ⟨applyRules_repl2 h, applyRules_no_pat2 s⟩

theorem claim_C4_witness :
    IsSub pat2 ("z".data ++ pat2) ∧
      (IsSub repl2 (applyRules ("z".data ++ pat2)) ∧
        ¬ IsSub pat2 (applyRules ("z".data ++ pat2))) :=
  ⟨⟨"z".data, [], by simp⟩, claim_C4_second_rule _ ⟨"z".data, [], by simp⟩⟩

/-- C5 counterexample: with a missing root the process exit status is 0 —
not non-zero as the claim states — because `main` plainly returns and the
script never calls `sys.exit`. -/
theorem claim_C5_counterexample :
    fsNoRoot.rootExists = false ∧ (main_run fsNoRoot).exitCode = 0 ∧
      ¬ (main_run fsNoRoot).exitCode ≠ 0 :=
  ⟨rfl, rfl, fun h => h rfl⟩

/-- C5 amended: if the root does not exist the run fails immediately — the
root-missing error line is reported and no file is read or written — but the
exit status is 0; when the root exists the exit status is also 0. -/
theorem claim_C5_root_check (fs : FileSystem) :
    (fs.rootExists = false →
      (main_run fs).rootError = some rootErrorLine ∧
      (main_run fs).outcomes = fs.files.map skipOutcome ∧
      (∀ o ∈ (main_run fs).outcomes, o.wasRead = false ∧ o.wasWritten = false) ∧
      (main_run fs).fixedPaths = [] ∧
      (main_run fs).exitCode = 0) ∧
    (fs.rootExists = true →
      (main_run fs).rootError = none ∧ (main_run fs).exitCode = 0) := by
  constructor
  · intro h
    have e : main_run fs =
        { outcomes := fs.files.map skipOutcome, fixedPaths := [], errors := [],
          scanned := 0, exitCode := 0, rootError := some rootErrorLine } := by
      unfold main_run
      rw [if_pos h]
    rw [e]
    refine ⟨rfl, rfl, ?_, rfl, rfl⟩
    intro o ho
    rw [List.mem_map] at ho
    obtain ⟨f, _, rfl⟩ := ho
    exact ⟨rfl, rfl⟩
  · intro h
    constructor
    · unfold main_run
      rw [if_neg (by simp [h])]
    · exact main_exit fs

theorem claim_C5_witness :
    fsNoRoot.rootExists = false ∧
      ((main_run fsNoRoot).rootError = some rootErrorLine ∧
        (main_run fsNoRoot).outcomes = fsNoRoot.files.map skipOutcome ∧
        (∀ o ∈ (main_run fsNoRoot).outcomes, o.wasRead = false ∧ o.wasWritten = false) ∧
        (main_run fsNoRoot).fixedPaths = [] ∧
        (main_run fsNoRoot).exitCode = 0) ∧
      fsDemo.rootExists = true ∧
      ((main_run fsDemo).rootError = none ∧ (main_run fsDemo).exitCode = 0) :=
  ⟨rfl, (claim_C5_root_check fsNoRoot).1 rfl, rfl, (claim_C5_root_check fsDemo).2 rfl⟩

/-- C6: failures are isolated: if the file at index `k` fails to read, the
run still completes, its error line is reported, and every other eligible
file — readable, writable, `.java`, content changed by the rules — is fixed
and recorded. -/
theorem claim_C6_isolation (fs : FileSystem) (hroot : fs.rootExists = true)
    (k : Nat) (hk : k < fs.files.length)
    (hkj : hasJavaExt (fs.files.get ⟨k, hk⟩).path = true)
    (hkr : (fs.files.get ⟨k, hk⟩).readFails = true) :
    errorLine (fs.files.get ⟨k, hk⟩) ∈ (main_run fs).errors ∧
    (∀ j, (hj : j < fs.files.length) → j ≠ k →
      hasJavaExt (fs.files.get ⟨j, hj⟩).path = true →
      (fs.files.get ⟨j, hj⟩).readFails = false →
      (fs.files.get ⟨j, hj⟩).writeFails = false →
      applyRules (fs.files.get ⟨j, hj⟩).content ≠ (fs.files.get ⟨j, hj⟩).content →
      (fs.files.get ⟨j, hj⟩).path ∈ (main_run fs).fixedPaths ∧
      (stepFile (fs.files.get ⟨j, hj⟩)).fixed = true ∧
      (stepFile (fs.files.get ⟨j, hj⟩)).file.content
        = applyRules (fs.files.get ⟨j, hj⟩).content) := by
  constructor
  · rw [main_errors hroot]
    exact mem_errorsOf (List.get_mem fs.files k hk)
      (by rw [stepFile_java hkj, fix_read_error hkr])
  · intro j hj hjk hjjava hjr hjw hjc
    have hfix : stepFile (fs.files.get ⟨j, hj⟩) =
        { file := { fs.files.get ⟨j, hj⟩ with
            content := applyRules (fs.files.get ⟨j, hj⟩).content },
          wasRead := true, wasWritten := true, fixed := true, errorMsg := none } := by
      rw [stepFile_java hjjava, fix_fixed hjr hjw hjc]
    refine ⟨?_, ?_, ?_⟩
    · rw [main_fixedPaths hroot]
      exact mem_fixedPathsOf (List.get_mem fs.files j hj) (by rw [hfix])
    · rw [hfix]
    · rw [hfix]

theorem claim_C6_witness :
    errorLine fErr ∈ (main_run fsDemo).errors ∧
      fHit.path ∈ (main_run fsDemo).fixedPaths ∧
      (stepFile fHit).fixed = true := by
  have h := claim_C6_isolation fsDemo rfl 0 (by decide) (by decide) (by decide)
  have h2 := h.2 1 (by decide) (by decide) (by decide) rfl rfl (by decide)
  exact ⟨h.1, h2.1, h2.2.1⟩

/-- C7: selective write: a file whose content contains neither pattern is
not written, its content is unchanged, and its path is absent from the
fixed-files list. -/
theorem claim_C7_selective (fs : FileSystem) (hroot : fs.rootExists = true)
    (hnd : (fs.files.map FSFile.path).Nodup)
    (f : FSFile) (hf : f ∈ fs.files)
    (h1 : ¬ IsSub pat1 f.content) (h2 : ¬ IsSub pat2 f.content) :
    (stepFile f).wasWritten = false ∧ (stepFile f).file = f ∧
      stepFile f ∈ (main_run fs).outcomes ∧
      f.path ∉ (main_run fs).fixedPaths := by
  have hc : applyRules f.content = f.content := applyRules_of_no_sub h1 h2
  obtain ⟨hfix, hfile, hw⟩ := step_nofix hc
  refine ⟨hw, hfile, ?_, ?_⟩
  · rw [main_outcomes hroot]
    exact List.mem_map_of_mem stepFile hf
  · rw [main_fixedPaths hroot]
    exact not_mem_fixedPathsOf hnd hf hfix

theorem claim_C7_witness :
    (stepFile fMiss).wasWritten = false ∧ (stepFile fMiss).file = fMiss ∧
      stepFile fMiss ∈ (main_run fsDemo).outcomes ∧
      fMiss.path ∉ (main_run fsDemo).fixedPaths :=
  claim_C7_selective fsDemo rfl (by decide) fMiss (by decide)
    (not_isSub_of_false (by decide)) (not_isSub_of_false (by decide))

/-- C8: extension filtering: a file whose name does not end in `.java` is
never opened for reading or writing, even if its content contains a rule's
pattern. -/
theorem claim_C8_ext_filter (fs : FileSystem) (hroot : fs.rootExists = true)
    (f : FSFile) (hf : f ∈ fs.files) (hnj : hasJavaExt f.path = false) :
    stepFile f = skipOutcome f ∧ (stepFile f).wasRead = false ∧
      (stepFile f).wasWritten = false ∧ (stepFile f).file = f ∧
      stepFile f ∈ (main_run fs).outcomes := by
  have hs := stepFile_skip hnj
  refine ⟨hs, by rw [hs]; rfl, by rw [hs]; rfl, by rw [hs]; rfl, ?_⟩
  rw [main_outcomes hroot]
  exact List.mem_map_of_mem stepFile hf

theorem claim_C8_witness :
    IsSub pat1 fTxt.content ∧
      (stepFile fTxt = skipOutcome fTxt ∧ (stepFile fTxt).wasRead = false ∧
        (stepFile fTxt).wasWritten = false ∧ (stepFile fTxt).file = fTxt ∧
        stepFile fTxt ∈ (main_run fsDemo).outcomes) :=
  ⟨⟨[], [], by decide⟩, claim_C8_ext_filter fsDemo rfl fTxt (by decide) (by decide)⟩

/-- C9: the read decodes UTF-8 dropping undecodable bytes, so whenever a
rule matches, the rewritten bytes are the UTF-8 re-encoding of the ignored
decode — every written byte is below `0xF5`, so undecodable bytes such as
`0xFF` are omitted — while a file with no match keeps its exact bytes
because no write occurs. -/
theorem claim_C9_encoding (bytes : List Nat) :
    (applyRules (decodeUtf8Ignore bytes) ≠ decodeUtf8Ignore bytes →
      (fixFileBytes bytes).1 = true ∧
      (fixFileBytes bytes).2 = encodeUtf8 (applyRules (decodeUtf8Ignore bytes)) ∧
      ∀ b ∈ (fixFileBytes bytes).2, b < 0xF5) ∧
    (applyRules (decodeUtf8Ignore bytes) = decodeUtf8Ignore bytes →
      fixFileBytes bytes = (false, bytes)) := by
  constructor
  · intro h
    rw [fixFileBytes_changed h]
    exact ⟨rfl, rfl, encodeUtf8_lt _⟩
  · exact fixFileBytes_unchanged

theorem claim_C9_witness :
    0xFF ∈ c9bytes ∧
      (fixFileBytes c9bytes).1 = true ∧
      (fixFileBytes c9bytes).2 = encodeUtf8 (applyRules (decodeUtf8Ignore c9bytes)) ∧
      (∀ b ∈ (fixFileBytes c9bytes).2, b < 0xF5) ∧
      (fixFileBytes c9bytes).2 = c9outBytes ∧ 0xFF ∉ c9outBytes := by
  obtain ⟨h1, h2, h3⟩ := (claim_C9_encoding c9bytes).1 (by decide)
  exact ⟨by decide, h1, h2, h3, by decide, by decide⟩

/-- C10: `fix_http_urls_in_file` is total at its interface: any read or
write failure is caught inside, the error line naming the path is printed
and `False` returned; `True` is returned exactly when the content changed
and the write completed without raising. -/
theorem claim_C10_total (f : FSFile) :
    ((fix_http_urls_in_file f).fixed = true ↔
      f.readFails = false ∧ applyRules f.content ≠ f.content ∧ f.writeFails = false) ∧
    ((fix_http_urls_in_file f).errorMsg =
      if f.readFails = true ∨ (applyRules f.content ≠ f.content ∧ f.writeFails = true)
      then some (errorLine f) else none) :=
  ⟨fix_fixed_iff f, fix_error_eq f⟩

theorem claim_C10_witness :
    ((fix_http_urls_in_file fErr).fixed = true ↔
      fErr.readFails = false ∧ applyRules fErr.content ≠ fErr.content ∧
        fErr.writeFails = false) ∧
    ((fix_http_urls_in_file fErr).errorMsg =
      if fErr.readFails = true ∨
          (applyRules fErr.content ≠ fErr.content ∧ fErr.writeFails = true)
      then some (errorLine fErr) else none) :=
  claim_C10_total fErr

end FixHttpUrls
